import Mathlib

/-!
# fcpp: zero every element of `v` that exceeds its threshold in `t`

Shallow embedding of `src/fcpp.cpp`:

```
void fcpp(NumericVector v, NumericVector t) {
  for(int i = 0; i < v.size(); i++)
     v[i] = v[i] > t[i] ? 0 : v[i];
}
```

* A `NumericVector` is a handle on storage shared with the caller, so the two
  arguments may name the same storage.  Handles are natural numbers and the
  storage is a `Heap`.
* The elements are IEEE 754 binary64 values, kept as their three bit fields.
  The program performs no arithmetic on them, only the comparison `>` and
  copies, so the bit-level model is exact.
* The loop counter `i` is a C++ `int`.  `i++` is taken as the successor on the
  integers: signed overflow is undefined in C++, so the source fixes no wrapped
  value for it, and `i` is compared and used as an index after conversion to the
  wider size type of `v.size()`.
* Element access is checked: an access outside the vector stops the run with
  `Status.outOfBounds`.
* Every element access and comparison is recorded in a log.
-/

namespace RBench

/-! ## IEEE 754 binary64 -/

/-- The bit fields of an IEEE 754 binary64 (`double`). -/
structure Double where
  sign : Bool
  expo : Fin 2048
  frac : Fin 4503599627370496
  deriving DecidableEq

namespace Double

/-- NaN: exponent all ones, fraction nonzero. -/
def isNaN (d : Double) : Bool := d.expo.val == 2047 && d.frac.val != 0

/-- The 63 magnitude bits read as a natural number. -/
def magnitude (d : Double) : Nat := d.expo.val * 4503599627370496 + d.frac.val

/-- Position of a non-NaN double on the number line: sign-magnitude order,
with `+0.0` and `-0.0` at the same position. -/
def key (d : Double) : Int :=
  if d.sign then - (d.magnitude : Int) else (d.magnitude : Int)

/-- The C++ `a > b` on doubles: false as soon as one operand is NaN. -/
def gt (a b : Double) : Bool :=
  if a.isNaN || b.isNaN then false else decide (b.key < a.key)

/-- The C++ `a == b` on doubles: false as soon as one operand is NaN. -/
def eq (a b : Double) : Bool :=
  if a.isNaN || b.isNaN then false else decide (a.key = b.key)

/-- The C++ `a <= b` on doubles: false as soon as one operand is NaN. -/
def le (a b : Double) : Bool :=
  if a.isNaN || b.isNaN then false else decide (a.key ≤ b.key)

/-- The C++ `a >= b` on doubles: false as soon as one operand is NaN. -/
def ge (a b : Double) : Bool :=
  if a.isNaN || b.isNaN then false else decide (b.key ≤ a.key)

/-- The `int` literal `0` converted to `double`: `+0.0`. -/
def zero : Double := ⟨false, 0, 0⟩

end Double

/-! ## Storage -/

/-- The caller's vectors, by handle. -/
abbrev Heap := Nat → List Double

/-- `v[i]` as an rvalue, `none` when `i` is outside the vector. -/
def load (h : Heap) (vec : Nat) (i : Int) : Option Double :=
  if 0 ≤ i then (h vec)[i.toNat]? else none

/-- `v[i] = x`, `none` when `i` is outside the vector. -/
def store (h : Heap) (vec : Nat) (i : Int) (x : Double) : Option Heap :=
  if 0 ≤ i ∧ i.toNat < (h vec).length then
    some (Function.update h vec ((h vec).set i.toNat x))
  else none

/-- What the run does to the storage and compares, in the order it happens. -/
inductive Event where
  | load (vec : Nat) (idx : Int)
  | store (vec : Nat) (idx : Int)
  | compare (idx : Int)
  deriving DecidableEq

/-- The storage together with the log of the run so far. -/
structure Machine where
  heap : Heap
  log : List Event

/-- How a run ended. -/
inductive Status where
  | finished
  | outOfBounds
  | outOfFuel
  deriving DecidableEq

/-- A run's final machine and how it ended. -/
structure Outcome where
  machine : Machine
  status : Status

/-! ## The program -/

/-- The largest `int`. -/
def INT_MAX : Nat := 2147483647

/-- The loop body `v[i] = v[i] > t[i] ? 0 : v[i];`.
`Except.error` carries the machine at the access that was out of bounds. -/
def body (v t : Nat) (i : Int) (s : Machine) : Except Machine Machine :=
  match load s.heap v i with
  | none => .error ⟨s.heap, s.log ++ [.load v i]⟩
  | some a =>
    match load s.heap t i with
    | none => .error ⟨s.heap, s.log ++ [.load v i, .load t i]⟩
    | some b =>
      if Double.gt a b then
        match store s.heap v i Double.zero with
        | none => .error ⟨s.heap, s.log ++ [.load v i, .load t i, .compare i, .store v i]⟩
        | some h => .ok ⟨h, s.log ++ [.load v i, .load t i, .compare i, .store v i]⟩
      else
        match load s.heap v i with
        | none => .error ⟨s.heap, s.log ++ [.load v i, .load t i, .compare i, .load v i]⟩
        | some a2 =>
          match store s.heap v i a2 with
          | none =>
            .error ⟨s.heap, s.log ++ [.load v i, .load t i, .compare i, .load v i, .store v i]⟩
          | some h =>
            .ok ⟨h, s.log ++ [.load v i, .load t i, .compare i, .load v i, .store v i]⟩

/-- The loop `for(int i = ...; i < v.size(); i++) body`, entered at counter `i`.
The first argument bounds the number of condition tests. -/
def fcppLoop (v t : Nat) : Nat → Int → Machine → Outcome
  | 0, _, s => ⟨s, .outOfFuel⟩
  | fuel + 1, i, s =>
    if i < ((s.heap v).length : Int) then
      match body v t i s with
      | .ok s2 => fcppLoop v t fuel (i + 1) s2
      | .error s2 => ⟨s2, .outOfBounds⟩
    else ⟨s, .finished⟩

/-- The function `fcpp(v, t)` run on heap `h`.  The loop tests its condition once
per element of `v` and once more to leave, so `v.size() + 1` condition tests are
never exceeded (`fcpp_fuel`). -/
def fcpp (v t : Nat) (h : Heap) : Outcome :=
  fcppLoop v t ((h v).length + 1) 0 ⟨h, []⟩

/-! ## Visiting the indices in another order -/

/-- The compare-and-zero step of `body` at index `i`, keeping the heap only. -/
def stepAt (v t : Nat) (h : Heap) (i : Nat) : Heap :=
  match body v t (i : Int) ⟨h, []⟩ with
  | .ok s => s.heap
  | .error s => s.heap

/-- An implementation that applies the step once at each index of `order`, in
that order. -/
def fcppInOrder (v t : Nat) (order : List Nat) (h : Heap) : Heap :=
  order.foldl (stepAt v t) h

/-! ## Reading a run -/

/-- The double `1.0`. -/
def d1 : Double := ⟨false, 1023, 0⟩
/-- The double `2.0`. -/
def d2 : Double := ⟨false, 1024, 0⟩
/-- The double `3.0`. -/
def d3 : Double := ⟨false, 1024, 2251799813685248⟩
/-- The double `5.0`. -/
def d5 : Double := ⟨false, 1025, 1125899906842624⟩
/-- The double `-1.0`. -/
def dNeg1 : Double := ⟨true, 1023, 0⟩
/-- The double `-2.0`. -/
def dNeg2 : Double := ⟨true, 1024, 0⟩
/-- The double `-0.0`. -/
def dNegZero : Double := ⟨true, 0, 0⟩
/-- A quiet NaN. -/
def dNaN : Double := ⟨false, 2047, 2251799813685248⟩
/-- Positive infinity. -/
def dInf : Double := ⟨false, 2047, 0⟩

/-- A heap holding `vs` at handle `0`, `ts` at handle `1`, nothing elsewhere. -/
def heap2 (vs ts : List Double) : Heap := fun k =>
  match k with
  | 0 => vs
  | 1 => ts
  | _ => []

/-- The heap in which the vector at handle `t` is cut down to its first `n`
elements. -/
def truncateAt (h : Heap) (t n : Nat) : Heap :=
  Function.update h t ((h t).take n)

/-! ## Closed forms used by the proofs -/

/-- The value `v[i] > t[i] ? 0 : v[i]` for `v[i] = a`, `t[i] = b`. -/
def clamp (a b : Double) : Double := if Double.gt a b then Double.zero else a

/-- The value vector once the first `k` indices have been processed. -/
def clampPrefix : Nat → List Double → List Double → List Double
  | k + 1, a :: vs, b :: ts => clamp a b :: clampPrefix k vs ts
  | _, vs, _ => vs

/-- The events of one completed iteration at index `i` with `v[i] = a`, `t[i] = b`. -/
def iterLog (v t : Nat) (a b : Double) (i : Int) : List Event :=
  if Double.gt a b then [.load v i, .load t i, .compare i, .store v i]
  else [.load v i, .load t i, .compare i, .load v i, .store v i]

/-- The log after the first `k` iterations on value list `vs` and threshold list `ts`. -/
def runLog (v t : Nat) (vs ts : List Double) : Nat → List Event
  | 0 => []
  | k + 1 => runLog v t vs ts k ++ iterLog v t (vs.getD k Double.zero) (ts.getD k Double.zero) k

/-- The machine after the first `k` iterations of `fcpp v t` started on heap `h`. -/
def machineAt (v t : Nat) (h : Heap) (k : Nat) : Machine :=
  ⟨Function.update h v (clampPrefix k (h v) (h t)), runLog v t (h v) (h t) k⟩

/-- The number of iterations a run completes, from the lengths of `v` and `t`:
all of `v` when `t` is long enough, else up to the end of `t`. -/
def stopIndex (n m : Nat) : Nat :=
  if n ≤ m then n else m

/-- The value vector once the indices `off + j` with `p (off + j)` have been
processed, for a list that starts at index `off`. -/
def clampWhere (p : Nat → Bool) : Nat → List Double → List Double → List Double
  | off, a :: vs, b :: ts => (if p off then clamp a b else a) :: clampWhere p (off + 1) vs ts
  | _, vs, _ => vs

/-! ## Lemmas -/

theorem Double.gt_self (a : Double) : Double.gt a a = false := by
  unfold Double.gt
  split <;> simp

theorem clamp_self (a : Double) : clamp a a = a := by
  simp [clamp, Double.gt_self]

theorem clampPrefix_zero (vs ts : List Double) : clampPrefix 0 vs ts = vs := by
  unfold clampPrefix; rfl

theorem clampPrefix_nil_right (k : Nat) (vs : List Double) : clampPrefix k vs [] = vs := by
  cases k <;> cases vs <;> rfl

theorem clampPrefix_nil_left (k : Nat) (ts : List Double) : clampPrefix k [] ts = [] := by
  cases k <;> rfl

theorem clampPrefix_cons (k : Nat) (a b : Double) (vs ts : List Double) :
    clampPrefix (k + 1) (a :: vs) (b :: ts) = clamp a b :: clampPrefix k vs ts := rfl

theorem clampPrefix_length (k : Nat) (vs ts : List Double) :
    (clampPrefix k vs ts).length = vs.length := by
  induction k generalizing vs ts with
  | zero => rw [clampPrefix_zero]
  | succ k ih =>
    cases vs with
    | nil => rw [clampPrefix_nil_left]
    | cons a vs =>
      cases ts with
      | nil => rw [clampPrefix_nil_right]
      | cons b ts => simp [clampPrefix_cons, ih]

theorem clampPrefix_getElem?_ge (k j : Nat) (vs ts : List Double) (hkj : k ≤ j) :
    (clampPrefix k vs ts)[j]? = vs[j]? := by
  induction k generalizing j vs ts with
  | zero => rw [clampPrefix_zero]
  | succ k ih =>
    cases vs with
    | nil => rw [clampPrefix_nil_left]
    | cons a vs =>
      cases ts with
      | nil => rw [clampPrefix_nil_right]
      | cons b ts =>
        obtain ⟨j, rfl⟩ : ∃ j2, j = j2 + 1 := ⟨j - 1, by omega⟩
        simpa [clampPrefix_cons] using ih j vs ts (by omega)

theorem clampPrefix_getElem?_lt (k j : Nat) (vs ts : List Double) (a b : Double)
    (hjk : j < k) (ha : vs[j]? = some a) (hb : ts[j]? = some b) :
    (clampPrefix k vs ts)[j]? = some (clamp a b) := by
  induction k generalizing j vs ts with
  | zero => omega
  | succ k ih =>
    cases vs with
    | nil => simp at ha
    | cons a2 vs =>
      cases ts with
      | nil => simp at hb
      | cons b2 ts =>
        cases j with
        | zero =>
          simp at ha hb
          simp [clampPrefix_cons, ha, hb]
        | succ j =>
          simp at ha hb
          simpa [clampPrefix_cons] using ih j vs ts (by omega) ha hb

theorem clampPrefix_set (k : Nat) (vs ts : List Double) (a b : Double)
    (ha : vs[k]? = some a) (hb : ts[k]? = some b) :
    (clampPrefix k vs ts).set k (clamp a b) = clampPrefix (k + 1) vs ts := by
  induction k generalizing vs ts with
  | zero =>
    cases vs with
    | nil => simp at ha
    | cons a2 vs =>
      cases ts with
      | nil => simp at hb
      | cons b2 ts =>
        simp at ha hb
        simp [clampPrefix_cons, clampPrefix_zero, ha, hb]
  | succ k ih =>
    cases vs with
    | nil => simp at ha
    | cons a2 vs =>
      cases ts with
      | nil => simp at hb
      | cons b2 ts =>
        simp at ha hb
        rw [clampPrefix_cons, List.set_cons_succ, ih vs ts ha hb, clampPrefix_cons]

theorem clampPrefix_full (k : Nat) (vs ts : List Double)
    (hk : vs.length ≤ k) (hlen : vs.length ≤ ts.length) :
    clampPrefix k vs ts = List.zipWith clamp vs ts := by
  induction k generalizing vs ts with
  | zero =>
    have : vs = [] := List.eq_nil_of_length_eq_zero (by omega)
    subst this
    simp [clampPrefix_zero]
  | succ k ih =>
    cases vs with
    | nil => simp [clampPrefix_nil_left]
    | cons a vs =>
      cases ts with
      | nil => simp at hlen
      | cons b ts =>
        simp at hk hlen
        simp [clampPrefix_cons, ih vs ts hk hlen]

theorem clampPrefix_self (k : Nat) (vs : List Double) : clampPrefix k vs vs = vs := by
  induction k generalizing vs with
  | zero => rw [clampPrefix_zero]
  | succ k ih =>
    cases vs with
    | nil => rfl
    | cons a vs => rw [clampPrefix_cons, clamp_self, ih]

theorem machineAt_zero (v t : Nat) (h : Heap) : machineAt v t h 0 = ⟨h, []⟩ := by
  simp [machineAt, clampPrefix_zero, runLog]

theorem machineAt_heap_self (v t : Nat) (h : Heap) (k : Nat) :
    (machineAt v t h k).heap v = clampPrefix k (h v) (h t) := by
  simp [machineAt]

theorem machineAt_heap_other (v t : Nat) (h : Heap) (k w : Nat) (hw : w ≠ v) :
    (machineAt v t h k).heap w = h w := by
  simp [machineAt, Function.update_noteq hw]

theorem load_machineAt_values (v t : Nat) (h : Heap) (k : Nat) :
    load (machineAt v t h k).heap v (k : Int) = (h v)[k]? := by
  simp [load, machineAt_heap_self, clampPrefix_getElem?_ge]

theorem load_machineAt_thresholds (v t : Nat) (h : Heap) (k : Nat) :
    load (machineAt v t h k).heap t (k : Int) = (h t)[k]? := by
  by_cases htv : t = v
  · subst htv
    simp [load, machineAt_heap_self, clampPrefix_getElem?_ge]
  · simp [load, machineAt_heap_other v t h k t htv]

theorem store_machineAt (v t : Nat) (h : Heap) (k : Nat) (a b : Double)
    (ha : (h v)[k]? = some a) (hb : (h t)[k]? = some b) :
    store (machineAt v t h k).heap v (k : Int) (clamp a b)
      = some (Function.update h v (clampPrefix (k + 1) (h v) (h t))) := by
  have hk : k < (h v).length := by
    rcases Nat.lt_or_ge k (h v).length with hlt | hge
    · exact hlt
    · rw [List.getElem?_eq_none hge] at ha; cases ha
  simp [store, machineAt, clampPrefix_length, hk, clampPrefix_set k (h v) (h t) a b ha hb]

/-- One iteration at an index inside both vectors. -/
theorem body_machineAt (v t : Nat) (h : Heap) (k : Nat) (a b : Double)
    (ha : (h v)[k]? = some a) (hb : (h t)[k]? = some b) :
    body v t (k : Int) (machineAt v t h k) = .ok (machineAt v t h (k + 1)) := by
  have hst := store_machineAt v t h k a b ha hb
  unfold body
  rw [load_machineAt_values, load_machineAt_thresholds, ha, hb]
  by_cases hgt : Double.gt a b = true
  · have hc : clamp a b = Double.zero := by simp [clamp, hgt]
    rw [hc] at hst
    simp only [hgt, if_true, hst]
    simp [machineAt, runLog, iterLog, ha, hb, hgt]
  · have hc : clamp a b = a := by simp [clamp, hgt]
    rw [hc] at hst
    simp only [hgt, hst]
    simp [machineAt, runLog, iterLog, ha, hb, hgt]

/-- Running `d` iterations from index `k`, all inside both vectors. -/
theorem fcppLoop_advance (v t : Nat) (h : Heap) (d : Nat) :
    ∀ (k fuel : Nat), k + d ≤ (h v).length → k + d ≤ (h t).length →
      fcppLoop v t (fuel + d) (k : Int) (machineAt v t h k)
        = fcppLoop v t fuel ((k + d : Nat) : Int) (machineAt v t h (k + d)) := by
  induction d with
  | zero => intro k fuel _ _; rfl
  | succ d ih =>
    intro k fuel hv ht
    have hkv : k < (h v).length := by omega
    have hkt : k < (h t).length := by omega
    have ha : (h v)[k]? = some ((h v)[k]) := List.getElem?_eq_getElem hkv
    have hb : (h t)[k]? = some ((h t)[k]) := List.getElem?_eq_getElem hkt
    have hw : (k : Int) + 1 = ((k + 1 : Nat) : Int) := by
      push_cast; rfl
    have hcond : (k : Int) < (((machineAt v t h k).heap v).length : Int) := by
      rw [machineAt_heap_self, clampPrefix_length]; exact_mod_cast hkv
    have hfuel : fuel + (d + 1) = (fuel + d) + 1 := by omega
    rw [hfuel, fcppLoop]
    simp only [hcond, if_true, body_machineAt v t h k _ _ ha hb, hw]
    rw [ih (k + 1) fuel (by omega) (by omega)]
    have : k + 1 + d = k + (d + 1) := by omega
    rw [this]

/-- The run finishes when `t` is at least as long as `v`. -/
theorem fcpp_of_fits (v t : Nat) (h : Heap) (hlen : (h v).length ≤ (h t).length) :
    fcpp v t h = ⟨machineAt v t h (h v).length, .finished⟩ := by
  have hadv := fcppLoop_advance v t h (h v).length 0 1 (by omega) (by omega)
  have hf : 1 + (h v).length = (h v).length + 1 := by omega
  rw [hf] at hadv
  unfold fcpp
  rw [← machineAt_zero v t h]
  simp only [Nat.zero_add] at hadv
  have h0 : ((0 : Nat) : Int) = 0 := rfl
  rw [h0] at hadv
  rw [hadv, fcppLoop]
  simp [machineAt_heap_self, clampPrefix_length]

/-- The run stops at the first index past the end of `t` when `t` is shorter than `v`. -/
theorem fcpp_of_short (v t : Nat) (h : Heap) (hlen : (h t).length < (h v).length) :
    fcpp v t h = ⟨⟨(machineAt v t h (h t).length).heap,
        (machineAt v t h (h t).length).log
          ++ [.load v ((h t).length : Int), .load t ((h t).length : Int)]⟩, .outOfBounds⟩ := by
  have hadv := fcppLoop_advance v t h (h t).length 0 ((h v).length - (h t).length + 1)
    (by omega) (by omega)
  have hf : (h v).length - (h t).length + 1 + (h t).length = (h v).length + 1 := by
    omega
  rw [hf] at hadv
  unfold fcpp
  rw [← machineAt_zero v t h]
  simp only [Nat.zero_add] at hadv
  have h0 : ((0 : Nat) : Int) = 0 := rfl
  rw [h0] at hadv
  rw [hadv, fcppLoop]
  have hcond : ((h t).length : Int) < (((machineAt v t h (h t).length).heap v).length : Int) := by
    rw [machineAt_heap_self, clampPrefix_length]; exact_mod_cast hlen
  have ha : (h v)[(h t).length]? = some ((h v)[(h t).length]) := List.getElem?_eq_getElem hlen
  have hb : (h t)[(h t).length]? = none := List.getElem?_eq_none (le_refl _)
  simp only [hcond, if_true]
  unfold body
  rw [load_machineAt_values, load_machineAt_thresholds, ha, hb]

/-- The run finishes exactly when `t` is at least as long as `v`. -/
theorem fcpp_finished_iff (v t : Nat) (h : Heap) :
    (fcpp v t h).status = .finished ↔ (h v).length ≤ (h t).length := by
  constructor
  · intro hfin
    by_contra hcon
    rw [fcpp_of_short v t h (by omega)] at hfin
    cases hfin
  · intro hlen
    rw [fcpp_of_fits v t h hlen]

/-- Every run ends in a machine reached after some number `k` of completed
iterations, followed by at most the loads of an interrupted one. -/
theorem fcpp_shape (v t : Nat) (h : Heap) :
    ∃ (k : Nat) (extra : List Event),
      (fcpp v t h).machine.heap = (machineAt v t h k).heap
      ∧ (fcpp v t h).machine.log = runLog v t (h v) (h t) k ++ extra
      ∧ ∀ e ∈ extra, ∃ w i, e = Event.load w i := by
  rcases Nat.lt_or_ge (h t).length (h v).length with hlt | hge
  · refine ⟨(h t).length, [.load v ((h t).length : Int), .load t ((h t).length : Int)],
      ?_, ?_, ?_⟩
    · rw [fcpp_of_short v t h hlt]
    · rw [fcpp_of_short v t h hlt]; rfl
    · intro e he
      simp at he
      rcases he with he | he
      · exact ⟨_, _, he⟩
      · exact ⟨_, _, he⟩
  · refine ⟨(h v).length, [], ?_, ?_, ?_⟩
    · rw [fcpp_of_fits v t h hge]
    · rw [fcpp_of_fits v t h hge]; simp [machineAt]
    · intro e he; cases he

/-- The heap after a finished run. -/
theorem fcpp_heap_of_finished (v t : Nat) (h : Heap)
    (hfin : (fcpp v t h).status = .finished) :
    (fcpp v t h).machine.heap = Function.update h v (List.zipWith clamp (h v) (h t)) := by
  have hlen := (fcpp_finished_iff v t h).1 hfin
  rw [fcpp_of_fits v t h hlen]
  simp [machineAt, clampPrefix_full _ _ _ (le_refl _) hlen]

/-- The value vector after a finished run, index by index. -/
theorem fcpp_getElem?_of_finished (v t : Nat) (h : Heap)
    (hfin : (fcpp v t h).status = .finished) (i : Nat) (a b : Double)
    (ha : (h v)[i]? = some a) (hb : (h t)[i]? = some b) :
    ((fcpp v t h).machine.heap v)[i]? = some (clamp a b) := by
  rw [fcpp_heap_of_finished v t h hfin]
  simp [List.getElem?_zipWith, ha, hb]

theorem clamp_clamp (a b : Double) : clamp (clamp a b) b = clamp a b := by
  unfold clamp
  by_cases hgt : Double.gt a b = true
  · simp [hgt]
  · simp [hgt]

theorem zipWith_clamp_idem (vs ts : List Double) :
    List.zipWith clamp (List.zipWith clamp vs ts) ts = List.zipWith clamp vs ts := by
  induction vs generalizing ts with
  | nil => simp
  | cons a vs ih =>
    cases ts with
    | nil => simp
    | cons b ts => simp [clamp_clamp, ih]

theorem zipWith_clamp_self (vs : List Double) : List.zipWith clamp vs vs = vs := by
  induction vs with
  | nil => rfl
  | cons a vs ih => simp [clamp_self, ih]

theorem heap2_zero (vs ts : List Double) : heap2 vs ts 0 = vs := rfl

theorem heap2_one (vs ts : List Double) : heap2 vs ts 1 = ts := rfl

/-- In which heap every run ends, whatever its status. -/
theorem fcpp_heap (v t : Nat) (h : Heap) :
    (fcpp v t h).machine.heap
      = Function.update h v (clampPrefix (stopIndex (h v).length (h t).length) (h v) (h t)) := by
  unfold stopIndex
  rcases Nat.lt_or_ge (h t).length (h v).length with hlt | hge
  · rw [fcpp_of_short v t h hlt, if_neg (by omega)]
    rfl
  · rw [fcpp_of_fits v t h hge, if_pos hge]
    rfl

/-- How every run ends. -/
theorem fcpp_status (v t : Nat) (h : Heap) :
    (fcpp v t h).status
      = if (h v).length ≤ (h t).length then .finished else .outOfBounds := by
  rcases Nat.lt_or_ge (h t).length (h v).length with hlt | hge
  · rw [fcpp_of_short v t h hlt, if_neg (by omega)]
  · rw [fcpp_of_fits v t h hge, if_pos hge]

/-- The threshold vector is the same list after every run, also when it is `v`. -/
theorem fcpp_heap_thresholds (v t : Nat) (h : Heap) : (fcpp v t h).machine.heap t = h t := by
  rw [fcpp_heap]
  by_cases htv : t = v
  · subst htv; rw [Function.update_same, clampPrefix_self]
  · rw [Function.update_noteq htv]

theorem clampPrefix_idem (k : Nat) (vs ts : List Double) :
    clampPrefix k (clampPrefix k vs ts) ts = clampPrefix k vs ts := by
  induction k generalizing vs ts with
  | zero => simp [clampPrefix_zero]
  | succ k ih =>
    cases vs with
    | nil => simp [clampPrefix_nil_left]
    | cons a vs =>
      cases ts with
      | nil => simp [clampPrefix_nil_right]
      | cons b ts => simp [clampPrefix_cons, clamp_clamp, ih]

theorem clampPrefix_of_not_gt (k : Nat) (vs ts : List Double)
    (hno : ∀ (i : Nat) (a b : Double), vs[i]? = some a → ts[i]? = some b →
      Double.gt a b = false) :
    clampPrefix k vs ts = vs := by
  induction k generalizing vs ts with
  | zero => rw [clampPrefix_zero]
  | succ k ih =>
    cases vs with
    | nil => rw [clampPrefix_nil_left]
    | cons a vs =>
      cases ts with
      | nil => rw [clampPrefix_nil_right]
      | cons b ts =>
        have h0 : Double.gt a b = false := hno 0 a b (by simp) (by simp)
        have hrest : clampPrefix k vs ts = vs :=
          ih vs ts (fun i x y hx hy => hno (i + 1) x y (by simpa using hx) (by simpa using hy))
        rw [clampPrefix_cons, hrest]
        simp [clamp, h0]

theorem Double.gt_of_eq (a b : Double) (hab : Double.eq a b = true) : Double.gt a b = false := by
  unfold Double.eq at hab
  unfold Double.gt
  split
  · rfl
  · rename_i hn
    rw [if_neg hn] at hab
    have := of_decide_eq_true hab
    simp [this]

theorem Double.gt_of_isNaN (a b : Double) (hn : a.isNaN = true ∨ b.isNaN = true) :
    Double.gt a b = false := by
  unfold Double.gt
  rcases hn with hn | hn <;> simp [hn]

theorem store_mem_runLog (v t : Nat) (vs ts : List Double) (k : Nat) (w : Nat) (i : Int)
    (hmem : Event.store w i ∈ runLog v t vs ts k) : w = v := by
  induction k with
  | zero => simp [runLog] at hmem
  | succ k ih =>
    rw [runLog, List.mem_append] at hmem
    rcases hmem with hmem | hmem
    · exact ih hmem
    · unfold iterLog at hmem
      split at hmem <;> simp at hmem <;> exact hmem.1

theorem clampWhere_nil_left (p : Nat → Bool) (off : Nat) (ts : List Double) :
    clampWhere p off [] ts = [] := by
  unfold clampWhere; rfl

theorem clampWhere_nil_right (p : Nat → Bool) (off : Nat) (vs : List Double) :
    clampWhere p off vs [] = vs := by
  cases vs <;> rfl

theorem clampWhere_cons (p : Nat → Bool) (off : Nat) (a b : Double) (vs ts : List Double) :
    clampWhere p off (a :: vs) (b :: ts)
      = (if p off then clamp a b else a) :: clampWhere p (off + 1) vs ts := rfl

theorem clampWhere_length (p : Nat → Bool) (off : Nat) (vs ts : List Double) :
    (clampWhere p off vs ts).length = vs.length := by
  induction vs generalizing off ts with
  | nil => rw [clampWhere_nil_left]
  | cons a vs ih =>
    cases ts with
    | nil => rw [clampWhere_nil_right]
    | cons b ts => simp [clampWhere_cons, ih]

theorem clampWhere_getElem? (p : Nat → Bool) (off j : Nat) (vs ts : List Double) (a b : Double)
    (ha : vs[j]? = some a) (hb : ts[j]? = some b) :
    (clampWhere p off vs ts)[j]? = some (if p (off + j) then clamp a b else a) := by
  induction vs generalizing off j ts with
  | nil => simp at ha
  | cons a2 vs ih =>
    cases ts with
    | nil => simp at hb
    | cons b2 ts =>
      cases j with
      | zero =>
        simp at ha hb
        simp [clampWhere_cons, ha, hb]
      | succ j =>
        simp at ha hb
        have := ih (off + 1) j ts ha hb
        rw [clampWhere_cons]
        simpa [Nat.add_assoc, Nat.add_comm 1 j] using this

theorem clampWhere_congr (p q : Nat → Bool) (off : Nat) (vs ts : List Double)
    (hpq : ∀ j, off ≤ j → p j = q j) :
    clampWhere p off vs ts = clampWhere q off vs ts := by
  induction vs generalizing off ts with
  | nil => rw [clampWhere_nil_left, clampWhere_nil_left]
  | cons a vs ih =>
    cases ts with
    | nil => rw [clampWhere_nil_right, clampWhere_nil_right]
    | cons b ts =>
      rw [clampWhere_cons, clampWhere_cons, hpq off (le_refl _),
        ih (off + 1) ts (fun j hj => hpq j (by omega))]

theorem clampWhere_set (p : Nat → Bool) (off i : Nat) (vs ts : List Double) (a b : Double)
    (hp : p (off + i) = false) (ha : vs[i]? = some a) (hb : ts[i]? = some b) :
    (clampWhere p off vs ts).set i (clamp a b)
      = clampWhere (fun j => j == off + i || p j) off vs ts := by
  induction vs generalizing off i ts with
  | nil => simp at ha
  | cons a2 vs ih =>
    cases ts with
    | nil => simp at hb
    | cons b2 ts =>
      cases i with
      | zero =>
        simp at ha hb
        subst ha; subst hb
        simp only [Nat.add_zero] at hp
        rw [clampWhere_cons, clampWhere_cons, List.set_cons_zero]
        simp only [Nat.add_zero, beq_self_eq_true, Bool.true_or, if_true]
        congr 1
        exact clampWhere_congr _ _ (off + 1) vs ts (fun j hj => by
          have : (j == off) = false := by simp; omega
          simp [this])
      | succ i =>
        simp at ha hb
        have hp2 : p (off + 1 + i) = false := by
          rw [Nat.add_assoc, Nat.add_comm 1 i]; exact hp
        rw [clampWhere_cons, clampWhere_cons, List.set_cons_succ, ih (off + 1) i ts hp2 ha hb]
        have hoff : (off == off + (i + 1)) = false := by simp
        simp only [hoff, Bool.false_or]
        congr 1
        exact clampWhere_congr _ _ (off + 1) vs ts (fun j _ => by
          rw [Nat.add_assoc, Nat.add_comm 1 i])

theorem clampWhere_all (p : Nat → Bool) (off : Nat) (vs ts : List Double)
    (hp : ∀ j, j < vs.length → p (off + j) = true) (hlen : vs.length ≤ ts.length) :
    clampWhere p off vs ts = List.zipWith clamp vs ts := by
  induction vs generalizing off ts with
  | nil => simp [clampWhere_nil_left]
  | cons a vs ih =>
    cases ts with
    | nil => simp at hlen
    | cons b ts =>
      simp at hlen
      have h0 : p off = true := by simpa using hp 0 (by simp)
      have hrest := ih (off + 1) ts (fun j hj => by
        have := hp (j + 1) (by simp; omega)
        rw [Nat.add_assoc, Nat.add_comm 1 j]; exact this) hlen
      simp [clampWhere_cons, h0, hrest]

theorem clampWhere_none (off : Nat) (vs ts : List Double) :
    clampWhere (fun _ => false) off vs ts = vs := by
  induction vs generalizing off ts with
  | nil => rw [clampWhere_nil_left]
  | cons a vs ih =>
    cases ts with
    | nil => rw [clampWhere_nil_right]
    | cons b ts => simp [clampWhere_cons, ih]

/-- The step at an index not yet processed, inside both vectors. -/
theorem stepAt_clampWhere (v t : Nat) (h : Heap) (p : Nat → Bool) (i : Nat) (a b : Double)
    (hp : p i = false) (ha : (h v)[i]? = some a) (hb : (h t)[i]? = some b) :
    stepAt v t (Function.update h v (clampWhere p 0 (h v) (h t))) i
      = Function.update h v (clampWhere (fun j => j == i || p j) 0 (h v) (h t)) := by
  have hi : i < (h v).length := by
    rcases Nat.lt_or_ge i (h v).length with hlt | hge
    · exact hlt
    · rw [List.getElem?_eq_none hge] at ha; cases ha
  have hcur : (clampWhere p 0 (h v) (h t))[i]? = some a := by
    rw [clampWhere_getElem? p 0 i (h v) (h t) a b ha hb]
    simp [hp]
  have hlv : load (Function.update h v (clampWhere p 0 (h v) (h t))) v (i : Int) = some a := by
    simp [load, hcur]
  have hlt : load (Function.update h v (clampWhere p 0 (h v) (h t))) t (i : Int) = some b := by
    by_cases htv : t = v
    · subst htv
      have hab : a = b := by rw [ha] at hb; exact Option.some.inj hb
      simp [load, hcur, hab]
    · simp [load, Function.update_noteq htv, hb]
  have hset := clampWhere_set p 0 i (h v) (h t) a b (by simpa using hp) ha hb
  simp only [Nat.zero_add] at hset
  have hst : store (Function.update h v (clampWhere p 0 (h v) (h t))) v (i : Int) (clamp a b)
      = some (Function.update h v (clampWhere (fun j => j == i || p j) 0 (h v) (h t))) := by
    simp [store, clampWhere_length, hi, hset]
  unfold stepAt body
  simp only [hlv, hlt]
  by_cases hgt : Double.gt a b = true
  · have hc : clamp a b = Double.zero := by simp [clamp, hgt]
    rw [hc] at hst
    simp only [hgt, if_true, hst]
  · have hc : clamp a b = a := by simp [clamp, hgt]
    rw [hc] at hst
    simp only [hgt, hst]
    simp

/-- Applying the step along a duplicate-free list of fresh indices. -/
theorem foldl_stepAt (v t : Nat) (h : Heap) (order : List Nat) :
    ∀ (p : Nat → Bool),
      (∀ i ∈ order, i < (h v).length ∧ i < (h t).length ∧ p i = false) → order.Nodup →
      order.foldl (stepAt v t) (Function.update h v (clampWhere p 0 (h v) (h t)))
        = Function.update h v
            (clampWhere (fun j => decide (j ∈ order) || p j) 0 (h v) (h t)) := by
  induction order with
  | nil =>
    intro p _ _
    simp
  | cons i rest ih =>
    intro p hall hnd
    obtain ⟨hiv, hit, hpi⟩ := hall i (List.mem_cons_self _ _)
    have hnot : i ∉ rest := (List.nodup_cons.1 hnd).1
    have hnd2 : rest.Nodup := (List.nodup_cons.1 hnd).2
    rw [List.foldl_cons,
      stepAt_clampWhere v t h p i _ _ hpi (List.getElem?_eq_getElem hiv)
        (List.getElem?_eq_getElem hit),
      ih (fun j => j == i || p j) (fun i2 hi2 => by
        obtain ⟨h1, h2, h3⟩ := hall i2 (List.mem_cons_of_mem _ hi2)
        refine ⟨h1, h2, ?_⟩
        have hne : i2 ≠ i := fun hEq => hnot (hEq ▸ hi2)
        simp [hne, h3]) hnd2]
    have hcongr : clampWhere (fun j => decide (j ∈ rest) || (j == i || p j)) 0 (h v) (h t)
        = clampWhere (fun j => decide (j ∈ i :: rest) || p j) 0 (h v) (h t) := by
      apply clampWhere_congr
      intro j _
      by_cases hji : j = i
      · subst hji; simp
      · have hb : (j == i) = false := by simpa using hji
        simp [hji, hb]
    rw [hcongr]

/-- Visiting every index below `v.size()` once, in any order, gives the heap in which
each value has been compared with its threshold and zeroed. -/
theorem fcppInOrder_of_perm (v t : Nat) (h : Heap) (order : List Nat)
    (hlen : (h v).length ≤ (h t).length) (hperm : order.Perm (List.range (h v).length)) :
    fcppInOrder v t order h = Function.update h v (List.zipWith clamp (h v) (h t)) := by
  have hmem : ∀ j, j ∈ order ↔ j < (h v).length := fun j => by
    rw [hperm.mem_iff, List.mem_range]
  have hnd : order.Nodup := hperm.nodup_iff.2 (List.nodup_range _)
  have hstart : h = Function.update h v (clampWhere (fun _ => false) 0 (h v) (h t)) := by
    rw [clampWhere_none]; simp
  unfold fcppInOrder
  rw [hstart, foldl_stepAt v t h order (fun _ => false) (fun i hi => by
    have := (hmem i).1 hi
    exact ⟨this, by omega, rfl⟩) hnd]
  rw [clampWhere_all _ 0 (h v) (h t) (fun j hj => by simpa using (hmem j).2 hj) hlen]
  simp [clampWhere_none]

/-- Every load of the first `k` iterations is at an index in `0 .. k-1`. -/
theorem load_mem_runLog (v t : Nat) (vs ts : List Double) (k : Nat) (w : Nat) (i : Int)
    (hmem : Event.load w i ∈ runLog v t vs ts k) : 0 ≤ i ∧ i < (k : Int) := by
  induction k with
  | zero => simp [runLog] at hmem
  | succ k ih =>
    rw [runLog, List.mem_append] at hmem
    rcases hmem with hmem | hmem
    · have := ih hmem
      constructor
      · exact this.1
      · push_cast; omega
    · have hi : i = (k : Int) := by
        unfold iterLog at hmem
        split at hmem <;> simp at hmem <;> tauto
      subst hi
      constructor
      · exact Int.ofNat_nonneg k
      · push_cast; omega

theorem Double.gt_of_le (a b : Double) (hle : Double.le a b = true) :
    Double.gt a b = false := by
  unfold Double.le at hle
  unfold Double.gt
  split
  · rfl
  · rename_i hn
    rw [if_neg hn] at hle
    have := of_decide_eq_true hle
    simp only [decide_eq_false_iff_not]
    omega

theorem Double.le_of_not_gt (a b : Double) (ha : a.isNaN = false) (hb : b.isNaN = false)
    (hgt : Double.gt a b = false) : Double.le a b = true := by
  unfold Double.gt at hgt
  unfold Double.le
  simp only [ha, hb, Bool.or_self, Bool.false_eq_true, if_false] at hgt ⊢
  have := of_decide_eq_false hgt
  simp only [decide_eq_true_eq]
  omega

theorem Double.le_zero_of_ge (b : Double) (hge : Double.ge b Double.zero = true) :
    Double.le Double.zero b = true ∧ b.isNaN = false := by
  unfold Double.ge at hge
  unfold Double.le
  by_cases hn : (b.isNaN || Double.zero.isNaN) = true
  · rw [if_pos hn] at hge; cases hge
  · rw [if_neg hn] at hge
    have hkey := of_decide_eq_true hge
    have hb : b.isNaN = false := by
      cases hbn : b.isNaN
      · rfl
      · simp [hbn] at hn
    have hz : Double.zero.isNaN = false := by decide
    simp only [hz, hb, Bool.or_self, Bool.false_eq_true, if_false]
    exact ⟨decide_eq_true hkey, trivial⟩

theorem clampPrefix_take (k n : Nat) (vs ts : List Double) (hn : vs.length ≤ n) :
    clampPrefix k vs (ts.take n) = clampPrefix k vs ts := by
  induction k generalizing n vs ts with
  | zero => rw [clampPrefix_zero, clampPrefix_zero]
  | succ k ih =>
    cases vs with
    | nil => rw [clampPrefix_nil_left, clampPrefix_nil_left]
    | cons a vs =>
      cases ts with
      | nil => simp
      | cons b ts =>
        cases n with
        | zero => simp at hn
        | succ n =>
          simp at hn
          rw [List.take_succ_cons, clampPrefix_cons, clampPrefix_cons, ih n vs ts hn]

theorem runLog_take (v t : Nat) (vs ts : List Double) (k n : Nat) (hk : k ≤ n) :
    runLog v t vs (ts.take n) k = runLog v t vs ts k := by
  induction k with
  | zero => rfl
  | succ k ih =>
    have hget : (ts.take n)[k]? = ts[k]? := by
      rw [List.getElem?_take]
      simp
      omega
    rw [runLog, runLog, ih (by omega)]
    simp [List.getD, hget]

/-- The log of a run whose threshold vector is at least as long as the values. -/
theorem fcpp_log_of_not_short (v t : Nat) (h : Heap) (hlen : (h v).length ≤ (h t).length) :
    (fcpp v t h).machine.log
      = runLog v t (h v) (h t) (stopIndex (h v).length (h t).length) := by
  unfold stopIndex
  rw [fcpp_of_fits v t h hlen, if_pos hlen]
  simp [machineAt]

theorem stopIndex_le (n m : Nat) (hnm : n ≤ m) : stopIndex n m ≤ n := by
  unfold stopIndex
  rw [if_pos hnm]

theorem stopIndex_of_le (n m1 m2 : Nat) (h1 : n ≤ m1) (h2 : n ≤ m2) :
    stopIndex n m1 = stopIndex n m2 := by
  unfold stopIndex
  rw [if_pos h1, if_pos h2]

/-- Two heaps with the same values, and thresholds that agree on the first
`v.size()` elements, give the same value vector, status and log. -/
theorem fcpp_congr_thresholds (v t : Nat) (h h2 : Heap) (hv : h2 v = h v)
    (hlen : (h v).length ≤ (h t).length) (hlen2 : (h v).length ≤ (h2 t).length)
    (htake : (h2 t).take (h v).length = (h t).take (h v).length) :
    (fcpp v t h2).machine.heap v = (fcpp v t h).machine.heap v
    ∧ (fcpp v t h2).status = (fcpp v t h).status
    ∧ (fcpp v t h2).machine.log = (fcpp v t h).machine.log := by
  have hk := stopIndex_of_le (h v).length (h2 t).length (h t).length hlen2 hlen
  refine ⟨?_, ?_, ?_⟩
  · rw [fcpp_heap, fcpp_heap, hv, hk]
    simp only [Function.update_same]
    rw [← clampPrefix_take _ (h v).length (h v) (h2 t) (le_refl _),
      ← clampPrefix_take _ (h v).length (h v) (h t) (le_refl _), htake]
  · rw [fcpp_status, fcpp_status, hv, if_pos hlen2, if_pos hlen]
  · rw [fcpp_log_of_not_short v t h2 (by rw [hv]; exact hlen2),
      fcpp_log_of_not_short v t h hlen, hv, hk,
      ← runLog_take v t (h v) (h2 t) _ (h v).length (stopIndex_le _ _ hlen),
      ← runLog_take v t (h v) (h t) _ (h v).length (stopIndex_le _ _ hlen), htake]

/-! ## The claims -/

/-- C1: for equal-length values and thresholds, after `fcpp` every index holds `0`
when the original value exceeded its threshold and the original value otherwise;
the run does finish whenever the length fits the `int` counter; and the two worked
examples `[1,5,3]` against `[2,2,3]` and `[-1,0]` against `[-2,-2]` give `[1,0,3]`
and `[0,0]`. -/
theorem fcpp_pointwise (v t : Nat) (h : Heap) (hlen : (h v).length = (h t).length) :
    (∀ (i : Nat) (a b : Double), (fcpp v t h).status = .finished →
        (h v)[i]? = some a → (h t)[i]? = some b →
        ((fcpp v t h).machine.heap v)[i]? = some (if Double.gt a b then Double.zero else a))
    ∧ ((h v).length ≤ INT_MAX → (fcpp v t h).status = .finished)
    ∧ ((fcpp v t h).status = .finished →
        ((fcpp v t h).machine.heap v).length = (h v).length)
    ∧ (fcpp 0 1 (heap2 [d1, d5, d3] [d2, d2, d3])).machine.heap 0 = [d1, Double.zero, d3]
    ∧ (fcpp 0 1 (heap2 [dNeg1, Double.zero] [dNeg2, dNeg2])).machine.heap 0
        = [Double.zero, Double.zero] := by
  refine ⟨?_, ?_, ?_, by decide, by decide⟩
  · intro i a b hfin ha hb
    exact fcpp_getElem?_of_finished v t h hfin i a b ha hb
  · intro _
    exact (fcpp_finished_iff v t h).2 (by omega)
  · intro hfin
    rw [fcpp_heap_of_finished v t h hfin]
    simp [hlen]

/-- Witness for C1: index 1 of `[1,5,3]` against `[2,2,3]` is zeroed. -/
theorem fcpp_pointwise_witness :
    (heap2 [d1, d5, d3] [d2, d2, d3] 0).length = (heap2 [d1, d5, d3] [d2, d2, d3] 1).length
    ∧ (fcpp 0 1 (heap2 [d1, d5, d3] [d2, d2, d3])).status = .finished
    ∧ ((fcpp 0 1 (heap2 [d1, d5, d3] [d2, d2, d3])).machine.heap 0)[1]?
        = some (if Double.gt d5 d2 then Double.zero else d5) :=
  ⟨rfl, by decide,
    (fcpp_pointwise 0 1 (heap2 [d1, d5, d3] [d2, d2, d3]) rfl).1 1 d5 d2 (by decide) rfl rfl⟩

/-- C2: running `fcpp` a second time with the same thresholds, of any sign, ends the
same way as the first run and leaves the heap, hence the value sequence, exactly as
the first run left it; for equal lengths within the `int` counter both runs finish. -/
theorem fcpp_idempotent (v t : Nat) (h : Heap) :
    (fcpp v t (fcpp v t h).machine.heap).machine.heap = (fcpp v t h).machine.heap
    ∧ (fcpp v t (fcpp v t h).machine.heap).machine.heap v = (fcpp v t h).machine.heap v
    ∧ (fcpp v t (fcpp v t h).machine.heap).status = (fcpp v t h).status
    ∧ ((h v).length = (h t).length → (h v).length ≤ INT_MAX →
        (fcpp v t h).status = .finished
        ∧ (fcpp v t (fcpp v t h).machine.heap).status = .finished) := by
  have hHv : (fcpp v t h).machine.heap v
      = clampPrefix (stopIndex (h v).length (h t).length) (h v) (h t) := by
    rw [fcpp_heap]; simp
  have hHt : (fcpp v t h).machine.heap t = h t := fcpp_heap_thresholds v t h
  have hheap : (fcpp v t (fcpp v t h).machine.heap).machine.heap
      = (fcpp v t h).machine.heap := by
    rw [fcpp_heap v t (fcpp v t h).machine.heap, hHt, hHv, clampPrefix_length,
      clampPrefix_idem, ← hHv]
    simp
  have hstat : (fcpp v t (fcpp v t h).machine.heap).status = (fcpp v t h).status := by
    rw [fcpp_status v t (fcpp v t h).machine.heap, fcpp_status v t h, hHt, hHv,
      clampPrefix_length]
  refine ⟨hheap, by rw [hheap], hstat, ?_⟩
  intro hlen _
  have hfin : (fcpp v t h).status = .finished :=
    (fcpp_finished_iff v t h).2 (by omega)
  exact ⟨hfin, by rw [hstat]; exact hfin⟩

/-- Witness for C2: `[-1,0]` against the negative thresholds `[-2,-2]`. -/
theorem fcpp_idempotent_witness :
    (fcpp 0 1 (heap2 [dNeg1, Double.zero] [dNeg2, dNeg2])).status = .finished
    ∧ (fcpp 0 1 (fcpp 0 1 (heap2 [dNeg1, Double.zero] [dNeg2, dNeg2])).machine.heap).status
        = .finished :=
  (fcpp_idempotent 0 1 (heap2 [dNeg1, Double.zero] [dNeg2, dNeg2])).2.2.2 rfl (by decide)

/-- C3: `fcpp` writes only the value vector: the threshold vector after the call is
the threshold vector before it, every vector other than `v` is as before, and every
store of the run is a store to `v`. -/
theorem fcpp_frame (v t : Nat) (h : Heap) :
    (fcpp v t h).machine.heap t = h t
    ∧ (∀ w, w ≠ v → (fcpp v t h).machine.heap w = h w)
    ∧ (∀ w i, Event.store w i ∈ (fcpp v t h).machine.log → w = v) := by
  refine ⟨fcpp_heap_thresholds v t h, ?_, ?_⟩
  · intro w hw
    rw [fcpp_heap]
    simp [Function.update_noteq hw]
  · intro w i hmem
    obtain ⟨k, extra, _, hlog, hextra⟩ := fcpp_shape v t h
    rw [hlog, List.mem_append] at hmem
    rcases hmem with hmem | hmem
    · exact store_mem_runLog v t (h v) (h t) k w i hmem
    · obtain ⟨w2, i2, he⟩ := hextra _ hmem
      cases he

/-- Witness for C3: after `[1,5,3]` against `[2,2,3]` the thresholds are `[2,2,3]`. -/
theorem fcpp_frame_witness :
    (1 : Nat) ≠ 0
    ∧ (fcpp 0 1 (heap2 [d1, d5, d3] [d2, d2, d3])).machine.heap 1 = [d2, d2, d3] :=
  ⟨by decide, (fcpp_frame 0 1 (heap2 [d1, d5, d3] [d2, d2, d3])).2.1 1 (by decide)⟩

/-- C4: when every value equals its threshold (as the same double, or under `==`),
`fcpp` leaves the whole heap, hence the value vector, unchanged, and for equal
lengths within the `int` counter the run finishes; the same holds when one vector
is passed for both arguments. -/
theorem fcpp_all_equal (v t : Nat) (h : Heap)
    (heq : ∀ (i : Nat) (a b : Double), (h v)[i]? = some a → (h t)[i]? = some b →
      a = b ∨ Double.eq a b = true) :
    (fcpp v t h).machine.heap = h
    ∧ (fcpp v t h).machine.heap v = h v
    ∧ ((h v).length = (h t).length → (h v).length ≤ INT_MAX →
        (fcpp v t h).status = .finished)
    ∧ (fcpp v v h).machine.heap = h := by
  have hkeep : ∀ k, clampPrefix k (h v) (h t) = h v := by
    intro k
    apply clampPrefix_of_not_gt
    intro i a b ha hb
    rcases heq i a b ha hb with hab | hab
    · subst hab; exact Double.gt_self a
    · exact Double.gt_of_eq a b hab
  have hheap : (fcpp v t h).machine.heap = h := by
    rw [fcpp_heap, hkeep]; simp
  refine ⟨hheap, by rw [hheap], ?_, ?_⟩
  · intro hlen _
    exact (fcpp_finished_iff v t h).2 (by omega)
  · rw [fcpp_heap, clampPrefix_self]; simp

/-- Witness for C4: `[-0.0, 3.0]` against `[+0.0, 3.0]`, equal under `==`. -/
theorem fcpp_all_equal_witness :
    (fcpp 0 1 (heap2 [dNegZero, d3] [Double.zero, d3])).machine.heap 0
      = heap2 [dNegZero, d3] [Double.zero, d3] 0 :=
  (fcpp_all_equal 0 1 (heap2 [dNegZero, d3] [Double.zero, d3]) (by
    intro i a b ha hb
    match i with
    | 0 =>
      simp [heap2] at ha hb
      subst ha; subst hb
      right; decide
    | 1 =>
      simp [heap2] at ha hb
      subst ha; subst hb
      left; rfl
    | (i + 2) => simp [heap2] at ha)).2.1

/-- C6: when the value vector is empty, `fcpp` finishes with the heap unchanged (so
values stay empty and thresholds are untouched) and an empty log: nothing is read,
compared or written, whatever the threshold vector is. -/
theorem fcpp_empty (v t : Nat) (h : Heap) (hempty : (h v).length = 0) :
    (fcpp v t h).status = .finished
    ∧ (fcpp v t h).machine.heap = h
    ∧ (fcpp v t h).machine.heap v = []
    ∧ (fcpp v t h).machine.heap t = h t
    ∧ (fcpp v t h).machine.log = [] := by
  have hfit := fcpp_of_fits v t h (by omega)
  rw [hempty, machineAt_zero] at hfit
  rw [hfit]
  exact ⟨rfl, rfl, List.eq_nil_of_length_eq_zero hempty, rfl, rfl⟩

/-- Witness for C6: empty values against a non-empty threshold vector. -/
theorem fcpp_empty_witness :
    (heap2 [] [d1, dNaN] 0).length = 0
    ∧ (fcpp 0 1 (heap2 [] [d1, dNaN])).status = .finished
    ∧ (fcpp 0 1 (heap2 [] [d1, dNaN])).machine.log = [] :=
  ⟨rfl, (fcpp_empty 0 1 (heap2 [] [d1, dNaN]) rfl).1,
    (fcpp_empty 0 1 (heap2 [] [d1, dNaN]) rfl).2.2.2.2⟩

/-- C7: after a finished run, an index whose value is NaN still holds that same NaN
whatever its threshold is, and an index whose threshold is NaN holds its original
value: a comparison with NaN is false, so the element is never zeroed. -/
theorem fcpp_nan (v t : Nat) (h : Heap) (hfin : (fcpp v t h).status = .finished)
    (i : Nat) (a b : Double) (ha : (h v)[i]? = some a) (hb : (h t)[i]? = some b)
    (hnan : a.isNaN = true ∨ b.isNaN = true) :
    ((fcpp v t h).machine.heap v)[i]? = some a
    ∧ (a.isNaN = true →
        ∃ r, ((fcpp v t h).machine.heap v)[i]? = some r ∧ r.isNaN = true) := by
  have hres := fcpp_getElem?_of_finished v t h hfin i a b ha hb
  have hc : clamp a b = a := by simp [clamp, Double.gt_of_isNaN a b hnan]
  rw [hc] at hres
  exact ⟨hres, fun hna => ⟨a, hres, hna⟩⟩

/-- Witness for C7: a NaN value against `-2.0` and `5.0` against a NaN threshold. -/
theorem fcpp_nan_witness :
    ((fcpp 0 1 (heap2 [dNaN, d5] [dNeg2, dNaN])).machine.heap 0)[0]? = some dNaN
    ∧ ((fcpp 0 1 (heap2 [dNaN, d5] [dNeg2, dNaN])).machine.heap 0)[1]? = some d5 :=
  ⟨(fcpp_nan 0 1 (heap2 [dNaN, d5] [dNeg2, dNaN]) (by decide) 0 dNaN dNeg2 rfl rfl
      (Or.inl (by decide))).1,
   (fcpp_nan 0 1 (heap2 [dNaN, d5] [dNeg2, dNaN]) (by decide) 1 d5 dNaN rfl rfl
      (Or.inr (by decide))).1⟩

/-- C8: for equal-length values and thresholds, an implementation that applies the
same compare-and-zero step once at every index, in any permutation of `0..n-1`,
ends in the same heap, hence the same value sequence, as a finished run of `fcpp`;
and `fcpp` does finish whenever the length fits the `int` counter. -/
theorem fcpp_order_independent (v t : Nat) (h : Heap) (order : List Nat)
    (hlen : (h v).length = (h t).length)
    (hperm : order.Perm (List.range (h v).length)) :
    ((fcpp v t h).status = .finished →
        fcppInOrder v t order h = (fcpp v t h).machine.heap
        ∧ fcppInOrder v t order h v = (fcpp v t h).machine.heap v)
    ∧ ((h v).length ≤ INT_MAX → (fcpp v t h).status = .finished) := by
  constructor
  · intro hfin
    have heq : fcppInOrder v t order h = (fcpp v t h).machine.heap := by
      rw [fcpp_heap_of_finished v t h hfin, fcppInOrder_of_perm v t h order (by omega) hperm]
    exact ⟨heq, by rw [heq]⟩
  · intro _
    exact (fcpp_finished_iff v t h).2 (by omega)

/-- Witness for C8: the order `2, 0, 1` on `[1,5,3]` against `[2,2,3]`. -/
theorem fcpp_order_independent_witness :
    List.Perm [2, 0, 1] (List.range (heap2 [d1, d5, d3] [d2, d2, d3] 0).length)
    ∧ (fcpp 0 1 (heap2 [d1, d5, d3] [d2, d2, d3])).status = .finished
    ∧ fcppInOrder 0 1 [2, 0, 1] (heap2 [d1, d5, d3] [d2, d2, d3]) 0
        = (fcpp 0 1 (heap2 [d1, d5, d3] [d2, d2, d3])).machine.heap 0 :=
  ⟨by decide, by decide,
    ((fcpp_order_independent 0 1 (heap2 [d1, d5, d3] [d2, d2, d3]) [2, 0, 1] rfl
      (by decide)).1 (by decide)).2⟩

/-- C9: two finished runs whose inputs agree at index `i`, in the value and in the
threshold, agree at index `i` in their results, whatever the other indices hold. -/
theorem fcpp_index_independent (v1 t1 v2 t2 : Nat) (h1 h2 : Heap)
    (hfin1 : (fcpp v1 t1 h1).status = .finished)
    (hfin2 : (fcpp v2 t2 h2).status = .finished)
    (i : Nat) (hi1 : i < (h1 v1).length) (_hi2 : i < (h2 v2).length)
    (hv : (h1 v1)[i]? = (h2 v2)[i]?) (ht : (h1 t1)[i]? = (h2 t2)[i]?) :
    ((fcpp v1 t1 h1).machine.heap v1)[i]? = ((fcpp v2 t2 h2).machine.heap v2)[i]? := by
  have hle1 := (fcpp_finished_iff v1 t1 h1).1 hfin1
  have ha : (h1 v1)[i]? = some ((h1 v1)[i]) := List.getElem?_eq_getElem hi1
  have hb : (h1 t1)[i]? = some ((h1 t1)[i]) := List.getElem?_eq_getElem (by omega)
  rw [fcpp_getElem?_of_finished v1 t1 h1 hfin1 i _ _ ha hb,
    fcpp_getElem?_of_finished v2 t2 h2 hfin2 i _ _ (hv ▸ ha) (ht ▸ hb)]

/-- Witness for C9: `[1,5,3]` against `[2,2,3]` and `[5,5]` against `[-2,2]` agree
at index 1. -/
theorem fcpp_index_independent_witness :
    ((fcpp 0 1 (heap2 [d1, d5, d3] [d2, d2, d3])).machine.heap 0)[1]?
      = ((fcpp 0 1 (heap2 [d5, d5] [dNeg2, d2])).machine.heap 0)[1]? :=
  fcpp_index_independent 0 1 0 1 (heap2 [d1, d5, d3] [d2, d2, d3]) (heap2 [d5, d5] [dNeg2, d2])
    (by decide) (by decide) 1 (by decide) (by decide) rfl rfl

/-- C12: the value vector has the same length after every run as before it, and
after a finished run every index holds either `0` or the element that was at that
same index before: nothing is added, removed or moved. -/
theorem fcpp_length_preserved (v t : Nat) (h : Heap) :
    ((fcpp v t h).machine.heap v).length = (h v).length
    ∧ ((fcpp v t h).status = .finished →
        ∀ (i : Nat) (a : Double), (h v)[i]? = some a →
          ((fcpp v t h).machine.heap v)[i]? = some Double.zero
          ∨ ((fcpp v t h).machine.heap v)[i]? = some a)
    ∧ ((fcpp v t h).status = .finished →
        ∀ (i : Nat), (h v)[i]? = none → ((fcpp v t h).machine.heap v)[i]? = none) := by
  have hlength : ((fcpp v t h).machine.heap v).length = (h v).length := by
    rw [fcpp_heap]; simp [clampPrefix_length]
  refine ⟨hlength, ?_, ?_⟩
  · intro hfin i a ha
    have hle := (fcpp_finished_iff v t h).1 hfin
    have hi : i < (h v).length := by
      rcases Nat.lt_or_ge i (h v).length with hlt | hge
      · exact hlt
      · rw [List.getElem?_eq_none hge] at ha; cases ha
    have hb : (h t)[i]? = some ((h t)[i]) := List.getElem?_eq_getElem (by omega)
    rw [fcpp_getElem?_of_finished v t h hfin i a _ ha hb]
    unfold clamp
    split
    · left; rfl
    · right; rfl
  · intro _ i hnone
    have hge : (h v).length ≤ i := by
      rcases Nat.lt_or_ge i (h v).length with hlt | hge
      · rw [List.getElem?_eq_getElem hlt] at hnone; cases hnone
      · exact hge
    exact List.getElem?_eq_none (by omega)

/-- Witness for C12: index 1 of `[1,5,3]` against `[2,2,3]` holds `0` or `5`. -/
theorem fcpp_length_preserved_witness :
    (fcpp 0 1 (heap2 [d1, d5, d3] [d2, d2, d3])).status = .finished
    ∧ (((fcpp 0 1 (heap2 [d1, d5, d3] [d2, d2, d3])).machine.heap 0)[1]? = some Double.zero
      ∨ ((fcpp 0 1 (heap2 [d1, d5, d3] [d2, d2, d3])).machine.heap 0)[1]? = some d5) :=
  ⟨by decide,
    (fcpp_length_preserved 0 1 (heap2 [d1, d5, d3] [d2, d2, d3])).2.1 (by decide) 1 d5 rfl⟩

/-- C13: when every threshold is `>= 0` and no value is NaN, after a finished run no
element exceeds its threshold: `result[i] > t[i]` is false and `result[i] <= t[i]` is
true at every index; with the negative threshold `-2.0` the bound fails, the zeroed
element `0` being greater than its threshold. -/
theorem fcpp_bounded_of_nonneg (v t : Nat) (h : Heap)
    (hfin : (fcpp v t h).status = .finished)
    (hnonneg : ∀ (i : Nat) (b : Double), (h t)[i]? = some b →
      Double.ge b Double.zero = true)
    (hnum : ∀ (i : Nat) (a : Double), (h v)[i]? = some a → a.isNaN = false) :
    (∀ (i : Nat) (r b : Double), ((fcpp v t h).machine.heap v)[i]? = some r →
        (h t)[i]? = some b → Double.gt r b = false ∧ Double.le r b = true)
    ∧ ((fcpp 0 1 (heap2 [dNeg1, Double.zero] [dNeg2, dNeg2])).status = .finished
      ∧ ((fcpp 0 1 (heap2 [dNeg1, Double.zero] [dNeg2, dNeg2])).machine.heap 0)[0]?
          = some Double.zero
      ∧ Double.gt Double.zero dNeg2 = true
      ∧ Double.le Double.zero dNeg2 = false) := by
  refine ⟨?_, by decide, by decide, by decide, by decide⟩
  intro i r b hr hb
  have hlength : ((fcpp v t h).machine.heap v).length = (h v).length := by
    rw [fcpp_heap]; simp [clampPrefix_length]
  have hi : i < (h v).length := by
    rcases Nat.lt_or_ge i (h v).length with hlt | hge
    · exact hlt
    · rw [List.getElem?_eq_none (by omega)] at hr; cases hr
  have ha : (h v)[i]? = some ((h v)[i]) := List.getElem?_eq_getElem hi
  rw [fcpp_getElem?_of_finished v t h hfin i _ b ha hb] at hr
  have hrc : clamp ((h v)[i]) b = r := Option.some.inj hr
  obtain ⟨hzb, hbn⟩ := Double.le_zero_of_ge b (hnonneg i b hb)
  have han := hnum i _ ha
  have hle : Double.le r b = true := by
    rw [← hrc]
    unfold clamp
    by_cases hgt : Double.gt ((h v)[i]) b = true
    · rw [if_pos hgt]; exact hzb
    · rw [if_neg hgt]
      exact Double.le_of_not_gt _ b han hbn (by simpa using hgt)
  exact ⟨Double.gt_of_le r b hle, hle⟩

/-- Witness for C13: `[1,5,3]` against the non-negative thresholds `[2,2,3]`. -/
theorem fcpp_bounded_of_nonneg_witness :
    Double.gt Double.zero d2 = false ∧ Double.le Double.zero d2 = true :=
  (fcpp_bounded_of_nonneg 0 1 (heap2 [d1, d5, d3] [d2, d2, d3]) (by decide)
    (by
      intro i b hb
      match i with
      | 0 => simp [heap2] at hb; subst hb; decide
      | 1 => simp [heap2] at hb; subst hb; decide
      | 2 => simp [heap2] at hb; subst hb; decide
      | (i + 3) => simp [heap2] at hb)
    (by
      intro i a ha
      match i with
      | 0 => simp [heap2] at ha; subst ha; decide
      | 1 => simp [heap2] at ha; subst ha; decide
      | 2 => simp [heap2] at ha; subst ha; decide
      | (i + 3) => simp [heap2] at ha)).1 1 Double.zero d2 (by decide) rfl

/-- C14: when the threshold vector is longer than the value vector, running `fcpp`
with the thresholds cut down to their first `v.size()` elements gives the same value
vector, the same status and the same log; no threshold at an index `>= v.size()` is
ever loaded; and any two threshold vectors that agree on the first `v.size()`
elements give the same value vector and status. -/
theorem fcpp_surplus_ignored (v t : Nat) (h : Heap)
    (hlong : (h v).length < (h t).length) :
    (fcpp v t (truncateAt h t (h v).length)).machine.heap v = (fcpp v t h).machine.heap v
    ∧ (fcpp v t (truncateAt h t (h v).length)).status = (fcpp v t h).status
    ∧ (fcpp v t (truncateAt h t (h v).length)).machine.log = (fcpp v t h).machine.log
    ∧ (∀ i, Event.load t i ∈ (fcpp v t h).machine.log → 0 ≤ i ∧ i < ((h v).length : Int))
    ∧ (∀ h2 : Heap, h2 v = h v → (h v).length ≤ (h2 t).length →
        (h2 t).take (h v).length = (h t).take (h v).length →
        (fcpp v t h2).machine.heap v = (fcpp v t h).machine.heap v
        ∧ (fcpp v t h2).status = (fcpp v t h).status) := by
  have htv : t ≠ v := by
    intro heq
    rw [heq] at hlong
    exact Nat.lt_irrefl _ hlong
  have hv2 : truncateAt h t (h v).length v = h v := by
    unfold truncateAt
    rw [Function.update_noteq (Ne.symm htv)]
  have ht2 : truncateAt h t (h v).length t = (h t).take (h v).length := by
    unfold truncateAt
    rw [Function.update_same]
  have hcut := fcpp_congr_thresholds v t h (truncateAt h t (h v).length) hv2 (by omega)
    (by rw [ht2, List.length_take]; omega)
    (by rw [ht2, List.take_take]; simp)
  refine ⟨hcut.1, hcut.2.1, hcut.2.2, ?_, ?_⟩
  · intro i hmem
    rw [fcpp_log_of_not_short v t h (by omega)] at hmem
    have hlt := load_mem_runLog v t _ _ _ t i hmem
    have hk := stopIndex_le (h v).length (h t).length (by omega)
    constructor
    · exact hlt.1
    · have : ((stopIndex (h v).length (h t).length : Nat) : Int) ≤ ((h v).length : Int) := by
        exact_mod_cast hk
      omega
  · intro h2 hv hlen2 htake
    have := fcpp_congr_thresholds v t h h2 hv (by omega) hlen2 htake
    exact ⟨this.1, this.2.1⟩

/-- Witness for C14: `[1,5]` against `[2,2,3]` and against the truncated `[2,2]`. -/
theorem fcpp_surplus_ignored_witness :
    (heap2 [d1, d5] [d2, d2, d3] 0).length < (heap2 [d1, d5] [d2, d2, d3] 1).length
    ∧ (fcpp 0 1 (truncateAt (heap2 [d1, d5] [d2, d2, d3]) 1
          (heap2 [d1, d5] [d2, d2, d3] 0).length)).machine.heap 0
        = (fcpp 0 1 (heap2 [d1, d5] [d2, d2, d3])).machine.heap 0
    ∧ (fcpp 0 1 (heap2 [d1, d5] [d2, d2, d3])).machine.heap 0 = [d1, Double.zero] :=
  ⟨by decide, (fcpp_surplus_ignored 0 1 (heap2 [d1, d5] [d2, d2, d3]) (by decide)).1,
    by decide⟩

end RBench
